import Mathlib

/-!
Verification development for the proof-of-work blockchain simulation
(`src/main.rs`, `src/transaction.rs`).

Modelling conventions:
- Rust `String` values are modelled as `List Char` (the hashes are ASCII hex,
  so byte slicing coincides with character slicing).
- `f64` amounts are modelled as exact rationals `ℚ`; the claims under study
  concern only sums and comparisons of amounts.
- SHA-256 hex encoding is abstracted as a function parameter
  `sha : Str → Str`; the real function always returns 64 hex characters,
  which is taken as a hypothesis where a claim needs it.
- Calls to `SystemTime::now` are threaded as an explicit `now : ℕ` argument.
- The unbounded `loop` in `Block::mine_block` is modelled by a fuel-indexed
  iteration `mineBlockFuel` returning `Option Block` (`none` = the loop has
  not exited within the given number of iterations).  At the repository
  difficulty the loop never exits (proved below), so the chain-level
  operations are additionally parametrised by an abstract mining routine
  `mineFn : Block → Block`; the predicate `MineSpec` states exactly what the
  Rust loop body guarantees structurally: only the `hash` and `nonce`
  fields are mutated.
- Progress logging and sleeping inside the mining loop are observable
  effects only and are not modelled.
-/

namespace BlockchainSim

/-- Rust strings, modelled as lists of characters. -/
abbrev Str := List Char

/-- Decimal rendering of a natural number (Display of u32 and u64). -/
def encNat (n : ℕ) : Str := Nat.toDigits 10 n

/-- Rendering of an amount (Display of f64, abstracted; never inspected). -/
def encRat (q : ℚ) : Str := (toString q).toList

/-- `const DIFFICULTY: usize = 2` from src/main.rs. -/
def DIFFICULTY : ℕ := 2

/-- `const REWARD_AMOUNT: f64 = 100.0` from src/main.rs. -/
def REWARD_AMOUNT : ℚ := 100

/-- `struct Transaction` from src/transaction.rs. -/
structure Transaction where
  sender : Str
  recipient : Str
  amount : ℚ
  timestamp : ℕ
  signature : Str
deriving DecidableEq, Inhabited

/-- `Transaction::new`: current timestamp, empty signature. -/
def Transaction.new (sender recipient : Str) (amount : ℚ) (now : ℕ) : Transaction :=
  { sender := sender
    recipient := recipient
    amount := amount
    timestamp := now
    signature := [] }

/-- `Transaction::calculate_hash`: digest of sender, recipient, amount,
timestamp concatenated in that order. -/
def Transaction.calculate_hash (sha : Str → Str) (tx : Transaction) : Str :=
  sha (tx.sender ++ tx.recipient ++ encRat tx.amount ++ encNat tx.timestamp)

/-- `Transaction::sign`: signature becomes the digest of
`private_key ++ ":" ++ content hash`. -/
def Transaction.sign (sha : Str → Str) (tx : Transaction) (private_key : Str) : Transaction :=
  { tx with signature := sha (private_key ++ [':'] ++ Transaction.calculate_hash sha tx) }

/-- `Transaction::verify_signature`: early return false on empty signature,
then returns the negation of emptiness (both branches kept as in source). -/
def Transaction.verify_signature (tx : Transaction) : Bool :=
  if tx.signature.isEmpty then false else !tx.signature.isEmpty

/-- `struct Mempool` from src/transaction.rs. -/
structure Mempool where
  transactions : List Transaction
deriving DecidableEq, Inhabited

/-- `Mempool::new`: empty pool. -/
def Mempool.new : Mempool := { transactions := [] }

/-- `Mempool::add_transaction`: reject when the signature check fails,
otherwise push at the end and report success. -/
def Mempool.add_transaction (mp : Mempool) (tx : Transaction) : Bool × Mempool :=
  if !tx.verify_signature then (false, mp)
  else (true, { transactions := mp.transactions ++ [tx] })

/-- `Mempool::get_transactions`: return the current contents and clear. -/
def Mempool.get_transactions (mp : Mempool) : List Transaction × Mempool :=
  (mp.transactions, { transactions := [] })

/-- `Mempool::len`. -/
def Mempool.len (mp : Mempool) : ℕ := mp.transactions.length

/-- `Mempool::is_empty`. -/
def Mempool.isEmptyPool (mp : Mempool) : Bool := mp.transactions.isEmpty

/-- `struct Block` from src/main.rs. -/
structure Block where
  index : ℕ
  previous_hash : Str
  timestamp : ℕ
  transactions : List Transaction
  nonce : ℕ
  hash : Str
deriving DecidableEq, Inhabited

/-- `Block::new`: given index, previous hash and transactions; current
timestamp, nonce 0, empty hash. -/
def Block.new (index : ℕ) (previous_hash : Str) (transactions : List Transaction)
    (now : ℕ) : Block :=
  { index := index
    previous_hash := previous_hash
    timestamp := now
    transactions := transactions
    nonce := 0
    hash := [] }

/-- `Block::calculate_hash`: digest of index, previous hash, timestamp, the
concatenation of the content hashes of the transactions, and nonce. -/
def Block.calculate_hash (sha : Str → Str) (b : Block) : Str :=
  sha (encNat b.index ++ b.previous_hash ++ encNat b.timestamp
    ++ (b.transactions.map (Transaction.calculate_hash sha)).flatten ++ encNat b.nonce)

/-- `str::repeat`: the Rust expression `s.repeat(n)`. -/
def strRepeat (s : Str) (n : ℕ) : Str := (List.replicate n s).flatten

/-- The exit condition of the loop in `Block::mine_block`, verbatim from the
source: the hash is non-empty and its first `d` characters (the slice
`&hash[..d]`) equal the string `"00".repeat(d)`.  Note the repeated unit is
the TWO-character string `"00"`. -/
def minedAccept (d : ℕ) (h : Str) : Bool :=
  !h.isEmpty && decide (h.take d = strRepeat (['0', '0']) d)

/-- The loop of `Block::mine_block`, fuel-indexed: each iteration stores the
candidate hash, exits if `minedAccept` holds, otherwise increments the
nonce (u64, hence the wraparound) and retries.  `none` means the loop has
not exited within `fuel` iterations; the source loop is unbounded. -/
def mineBlockFuel (sha : Str → Str) (d : ℕ) : ℕ → Block → Option Block
  | 0, _ => none
  | fuel + 1, b =>
    if minedAccept d (Block.calculate_hash sha b) then
      some { b with hash := Block.calculate_hash sha b }
    else
      mineBlockFuel sha d fuel
        { b with hash := Block.calculate_hash sha b, nonce := (b.nonce + 1) % 2 ^ 64 }

/-- Structural contract of the loop body of `Block::mine_block`: it mutates
only the `hash` and `nonce` fields of the block.  The chain-level operations
below are parametrised by an abstract mining routine satisfying this. -/
def MineSpec (mineFn : Block → Block) : Prop :=
  ∀ b : Block, (mineFn b).index = b.index ∧ (mineFn b).previous_hash = b.previous_hash
    ∧ (mineFn b).timestamp = b.timestamp ∧ (mineFn b).transactions = b.transactions

/-- `struct Blockchain` from src/main.rs. -/
structure Blockchain where
  chain : List Block
  mempool : Mempool
deriving DecidableEq, Inhabited

/-- `Blockchain::new`: a chain holding the mined genesis block
`Block::new(0, "0", vec![])` and an empty mempool. -/
def Blockchain.new (mineFn : Block → Block) (now : ℕ) : Blockchain :=
  { chain := [mineFn (Block.new 0 (['0']) [] now)]
    mempool := Mempool.new }

/-- `Blockchain::add_block`: overwrite the previous-hash field of the given
block with the hash of the current tip (`chain.last().unwrap()`, modelled
with `getLastD` since the chain of a constructed Blockchain is never empty),
mine it, and push it.  The index field of the argument is NOT adjusted. -/
def Blockchain.add_block (mineFn : Block → Block) (bc : Blockchain)
    (new_block : Block) : Blockchain :=
  { bc with
    chain := bc.chain
      ++ [mineFn { new_block with previous_hash := (bc.chain.getLastD default).hash }] }

/-- `Blockchain::create_transaction`: build, sign, submit to the mempool;
return the admission result. -/
def Blockchain.create_transaction (sha : Str → Str) (bc : Blockchain)
    (sender recipient : Str) (amount : ℚ) (private_key : Str) (now : ℕ) :
    Bool × Blockchain :=
  ((Mempool.add_transaction bc.mempool
      (Transaction.sign sha (Transaction.new sender recipient amount now) private_key)).1,
   { bc with
     mempool := (Mempool.add_transaction bc.mempool
      (Transaction.sign sha (Transaction.new sender recipient amount now) private_key)).2 })

/-- `Blockchain::mine_pending_transactions`: drain the mempool; if the
drained list is empty report false; otherwise build the block transaction
list as the coinbase (sender `"0"`, recipient the miner address, amount
`REWARD_AMOUNT`) followed by the drained transactions, construct the block
with index `chain.len() as u32` and the tip hash, mine it, append it and
report true.  The two `now()` reads of the source are threaded as one
value. -/
def Blockchain.mine_pending_transactions (mineFn : Block → Block) (bc : Blockchain)
    (miner_address : Str) (now : ℕ) : Bool × Blockchain :=
  if (Mempool.get_transactions bc.mempool).1.isEmpty then
    (false, { bc with mempool := (Mempool.get_transactions bc.mempool).2 })
  else
    (true,
     { chain := bc.chain
         ++ [mineFn (Block.new (bc.chain.length % 2 ^ 32)
              ((bc.chain.getLastD default).hash)
              (Transaction.new (['0']) miner_address REWARD_AMOUNT now
                :: (Mempool.get_transactions bc.mempool).1)
              now)]
       mempool := (Mempool.get_transactions bc.mempool).2 })

/-- `Blockchain::get_balance`: fold over every block and every transaction,
subtracting the amount when the sender matches and adding it when the
recipient matches. -/
def Blockchain.get_balance (bc : Blockchain) (address : Str) : ℚ :=
  bc.chain.foldl
    (fun balance block =>
      block.transactions.foldl
        (fun balance tx =>
          let b1 := if tx.sender = address then balance - tx.amount else balance
          if tx.recipient = address then b1 + tx.amount else b1)
        balance)
    0

/-- `Blockchain::get_total_blocks`. -/
def Blockchain.get_total_blocks (bc : Blockchain) : ℕ := bc.chain.length

/-- `Blockchain::get_pending_transaction_count`. -/
def Blockchain.get_pending_transaction_count (bc : Blockchain) : ℕ :=
  bc.mempool.transactions.length

/-- States reachable from `Blockchain::new` by any sequence of
`create_transaction`, `mine_pending_transactions` and `add_block` calls,
with arbitrary arguments and clock readings. -/
inductive Reachable (sha : Str → Str) (mineFn : Block → Block) : Blockchain → Prop where
  | new (now : ℕ) : Reachable sha mineFn (Blockchain.new mineFn now)
  | create (bc : Blockchain) (s r : Str) (a : ℚ) (k : Str) (now : ℕ) :
      Reachable sha mineFn bc →
      Reachable sha mineFn (Blockchain.create_transaction sha bc s r a k now).2
  | mine (bc : Blockchain) (m : Str) (now : ℕ) :
      Reachable sha mineFn bc →
      Reachable sha mineFn (Blockchain.mine_pending_transactions mineFn bc m now).2
  | add (bc : Blockchain) (b : Block) :
      Reachable sha mineFn bc →
      Reachable sha mineFn (Blockchain.add_block mineFn bc b)

/-- States reachable without any `add_block` call (only `create_transaction`
and `mine_pending_transactions`). -/
inductive ReachableCore (sha : Str → Str) (mineFn : Block → Block) : Blockchain → Prop where
  | new (now : ℕ) : ReachableCore sha mineFn (Blockchain.new mineFn now)
  | create (bc : Blockchain) (s r : Str) (a : ℚ) (k : Str) (now : ℕ) :
      ReachableCore sha mineFn bc →
      ReachableCore sha mineFn (Blockchain.create_transaction sha bc s r a k now).2
  | mine (bc : Blockchain) (m : Str) (now : ℕ) :
      ReachableCore sha mineFn bc →
      ReachableCore sha mineFn (Blockchain.mine_pending_transactions mineFn bc m now).2

/-- Adjacent-pair form of the hash-linkage invariant. -/
def Linked : List Block → Prop
  | [] => True
  | [_] => True
  | a :: b :: rest => b.previous_hash = a.hash ∧ Linked (b :: rest)

/-- The block at offset `i` carries index `(k + i) % 2 ^ 32` (u32 cast of
the chain length at append time). -/
def IndexedFrom : ℕ → List Block → Prop
  | _, [] => True
  | k, b :: t => b.index = k % 2 ^ 32 ∧ IndexedFrom (k + 1) t

/-- All transactions of all blocks of the chain, in chain order. -/
def allTxs (bc : Blockchain) : List Transaction :=
  (bc.chain.map Block.transactions).flatten

/-- Net effect of one transaction on the balance of one address. -/
def txDelta (address : Str) (tx : Transaction) : ℚ :=
  (if tx.recipient = address then tx.amount else 0)
    - (if tx.sender = address then tx.amount else 0)

/-- The distinct addresses appearing as a sender or recipient in a
transaction list. -/
def addrSetL (l : List Transaction) : Finset Str :=
  l.foldr (fun tx s => insert tx.sender (insert tx.recipient s)) ∅

/-- The distinct addresses that ever appear as a sender or recipient. -/
def addrSet (bc : Blockchain) : Finset Str := addrSetL (allTxs bc)

/-- Total amount sent by the coinbase sentinel sender `"0"` (on chains whose
sentinel transactions are exactly the coinbases, this is the sum of all
coinbase reward amounts). -/
def coinbaseTotal (bc : Blockchain) : ℚ :=
  ((allTxs bc).map (fun tx => if tx.sender = ['0'] then tx.amount else 0)).sum

/-- A stand-in digest function for concrete evaluation: 64 hex characters,
as the real SHA-256 hex encoding always produces. -/
def sha0 : Str → Str := fun _ => List.replicate 64 '0'

/-- A concrete mining routine mutating only hash (and trivially nonce),
used to instantiate the abstract miner in witnesses. -/
def mineFn0 : Block → Block := fun b => { b with hash := ['h'] }

/-- A 64-character hex digest whose first DIFFICULTY characters are the
character 0 repeated DIFFICULTY times, as the specification demands of a
mined hash. -/
def specGoodHash : Str := '0' :: '0' :: List.replicate 62 'a'

/-- Concrete chain state: genesis, then an add_block call whose argument
carries index field 5. -/
def bcC3 : Blockchain :=
  Blockchain.add_block mineFn0 (Blockchain.new mineFn0 0) (Block.new 5 (['x']) [] 0)

/-- Concrete chain state: genesis, one admitted transfer a → b of 50, then
one mined block (coinbase 0 → m of 100 plus the transfer). -/
def bcC8 : Blockchain :=
  (Blockchain.mine_pending_transactions mineFn0
    (Blockchain.create_transaction sha0 (Blockchain.new mineFn0 0)
      (['a']) (['b']) 50 (['k']) 0).2
    (['m']) 0).2

/-- The chain state `bcC8` spelled out as an explicit literal (proved equal
to `bcC8` below), used to evaluate concrete balance sums. -/
def bcLit : Blockchain :=
  { chain :=
      [{ index := 0, previous_hash := ['0'], timestamp := 0, transactions := [],
         nonce := 0, hash := ['h'] },
       { index := 1, previous_hash := ['h'], timestamp := 0,
         transactions :=
           [{ sender := ['0'], recipient := ['m'], amount := REWARD_AMOUNT,
              timestamp := 0, signature := [] },
            { sender := ['a'], recipient := ['b'], amount := 50,
              timestamp := 0, signature := List.replicate 64 '0' }],
         nonce := 0, hash := ['h'] }]
    mempool := { transactions := [] } }

/-- Concrete unmined block for mining witnesses. -/
def blk0Ex : Block := Block.new 0 (['0']) [] 0

/-- The result of one successful mining iteration on `blk0Ex` at
difficulty 0 with digest function `sha0`. -/
def blkM : Block := { blk0Ex with hash := List.replicate 64 '0' }

/-- Concrete chain state with one pending transaction in the mempool. -/
def bcC4 : Blockchain :=
  { chain := [mineFn0 (Block.new 0 (['0']) [] 0)]
    mempool := { transactions := [⟨['a'], ['b'], 50, 0, ['s']⟩] } }

/-- Concrete transaction with an empty signature. -/
def txEmptySig : Transaction := Transaction.new (['a']) (['b']) 50 0

/-! ## Helper lemmas -/

theorem mine_pending_empty_eq (mineFn : Block → Block) (bc : Blockchain)
    (miner : Str) (now : ℕ) (h : bc.mempool.transactions = []) :
    Blockchain.mine_pending_transactions mineFn bc miner now = (false, bc) := by
  obtain ⟨chain, ⟨txs⟩⟩ := bc
  have h2 : txs = [] := h
  subst h2
  rfl

theorem mine_pending_chain_nonempty_eq (mineFn : Block → Block) (bc : Blockchain)
    (miner : Str) (now : ℕ) (h : bc.mempool.transactions ≠ []) :
    (Blockchain.mine_pending_transactions mineFn bc miner now).2.chain
      = bc.chain ++ [mineFn (Block.new (bc.chain.length % 2 ^ 32)
          ((bc.chain.getLastD default).hash)
          (Transaction.new (['0']) miner REWARD_AMOUNT now :: bc.mempool.transactions)
          now)] := by
  have hcond : ¬((Mempool.get_transactions bc.mempool).1.isEmpty = true) := by
    simpa [Mempool.get_transactions] using h
  unfold Blockchain.mine_pending_transactions
  rw [if_neg hcond]
  rfl

theorem linked_concat : ∀ (l : List Block) (d b : Block), l ≠ [] → Linked l →
    b.previous_hash = (l.getLastD d).hash → Linked (l ++ [b])
  | [], _, _, hne, _, _ => absurd rfl hne
  | [a], _, b, _, _, hb => ⟨by simpa [List.getLastD_cons, List.getLastD_nil] using hb, trivial⟩
  | a :: c :: t, d, b, _, hl, hb =>
    ⟨hl.1, linked_concat (c :: t) a b (by simp) hl.2
      (by simpa [List.getLastD_cons] using hb)⟩

theorem linked_getD : ∀ (l : List Block), Linked l → ∀ i, 0 < i → i < l.length →
    (l.getD i default).previous_hash = (l.getD (i - 1) default).hash := by
  intro l
  induction l with
  | nil => intro _ i _ h2; simp at h2
  | cons a t ih =>
    intro hl i h1 h2
    cases t with
    | nil => simp at h2; omega
    | cons c t2 =>
      obtain ⟨j, rfl⟩ : ∃ j, i = j + 1 := ⟨i - 1, by omega⟩
      cases j with
      | zero => simpa using hl.1
      | succ j2 =>
        have h3 : j2 + 1 < (c :: t2).length := by
          simp only [List.length_cons] at h2 ⊢
          omega
        have ihx := ih hl.2 (j2 + 1) (by omega) h3
        simpa using ihx

theorem indexedFrom_concat : ∀ (l : List Block) (k : ℕ) (b : Block), IndexedFrom k l →
    b.index = (k + l.length) % 2 ^ 32 → IndexedFrom k (l ++ [b])
  | [], _, _, _, hb => ⟨by simpa using hb, trivial⟩
  | a :: t, k, b, hl, hb =>
    ⟨hl.1, indexedFrom_concat t (k + 1) b hl.2
      (by rw [hb]; congr 1; simp only [List.length_cons]; omega)⟩

theorem indexedFrom_getD : ∀ (l : List Block) (k : ℕ), IndexedFrom k l →
    ∀ i, i < l.length → (l.getD i default).index = (k + i) % 2 ^ 32
  | [], _, _, i, h => by simp at h
  | a :: t, k, hl, 0, _ => by simpa using hl.1
  | a :: t, k, hl, i + 1, h => by
    have ihx := indexedFrom_getD t (k + 1) hl.2 i
      (by simp only [List.length_cons] at h; omega)
    rw [List.getD_cons_succ, ihx]
    congr 1
    omega

theorem reachable_chain_inv (sha : Str → Str) (mineFn : Block → Block)
    (hm : MineSpec mineFn) (bc : Blockchain) (h : Reachable sha mineFn bc) :
    bc.chain ≠ [] ∧ Linked bc.chain ∧ (bc.chain.getD 0 default).index = 0 := by
  induction h with
  | new now => exact ⟨by simp [Blockchain.new], trivial, (hm _).1⟩
  | create bc s r a k now hr ih => exact ih
  | mine bc m now hr ih =>
    by_cases hd : bc.mempool.transactions = []
    · rw [mine_pending_empty_eq mineFn bc m now hd]
      exact ih
    · rw [mine_pending_chain_nonempty_eq mineFn bc m now hd]
      obtain ⟨hne, hlink, hidx⟩ := ih
      refine ⟨by simp, linked_concat _ default _ hne hlink ((hm _).2.1), ?_⟩
      obtain ⟨x, t, hx⟩ : ∃ x t, bc.chain = x :: t := by
        cases hxc : bc.chain with
        | nil => exact absurd hxc hne
        | cons x t => exact ⟨x, t, rfl⟩
      rw [hx] at hidx ⊢
      simpa using hidx
  | add bc b hr ih =>
    simp only [Blockchain.add_block]
    obtain ⟨hne, hlink, hidx⟩ := ih
    refine ⟨by simp, linked_concat _ default _ hne hlink ((hm _).2.1), ?_⟩
    obtain ⟨x, t, hx⟩ : ∃ x t, bc.chain = x :: t := by
      cases hxc : bc.chain with
      | nil => exact absurd hxc hne
      | cons x t => exact ⟨x, t, rfl⟩
    rw [hx] at hidx ⊢
    simpa using hidx

theorem core_chain_indexed (sha : Str → Str) (mineFn : Block → Block)
    (hm : MineSpec mineFn) (bc : Blockchain) (h : ReachableCore sha mineFn bc) :
    bc.chain ≠ [] ∧ IndexedFrom 0 bc.chain := by
  induction h with
  | new now => exact ⟨by simp [Blockchain.new], ⟨(hm _).1, trivial⟩⟩
  | create bc s r a k now hr ih => exact ih
  | mine bc m now hr ih =>
    by_cases hd : bc.mempool.transactions = []
    · rw [mine_pending_empty_eq mineFn bc m now hd]
      exact ih
    · rw [mine_pending_chain_nonempty_eq mineFn bc m now hd]
      exact ⟨by simp, indexedFrom_concat _ 0 _ ih.2 (by rw [Nat.zero_add]; exact (hm _).1)⟩

theorem foldl_add_shift {α : Type} (g : ℚ → α → ℚ) (f : α → ℚ)
    (hg : ∀ bal x, g bal x = bal + f x) :
    ∀ (l : List α) (bal : ℚ), l.foldl g bal = bal + (l.map f).sum := by
  intro l
  induction l with
  | nil => intro bal; simp
  | cons x rest ih =>
    intro bal
    rw [List.foldl_cons, hg, ih, List.map_cons, List.sum_cons]
    ring

theorem tx_step_eq (address : Str) (bal : ℚ) (tx : Transaction) :
    (let b1 := if tx.sender = address then bal - tx.amount else bal
     if tx.recipient = address then b1 + tx.amount else b1)
    = bal + txDelta address tx := by
  unfold txDelta
  by_cases h1 : tx.sender = address <;> by_cases h2 : tx.recipient = address
  all_goals simp [h1, h2]
  all_goals ring

theorem inner_fold_eq (address : Str) (txs : List Transaction) (bal : ℚ) :
    txs.foldl
      (fun balance tx =>
        let b1 := if tx.sender = address then balance - tx.amount else balance
        if tx.recipient = address then b1 + tx.amount else b1)
      bal
    = bal + (txs.map (txDelta address)).sum :=
  foldl_add_shift _ (txDelta address) (fun b t => tx_step_eq address b t) txs bal

theorem outer_fold_eq (address : Str) (blocks : List Block) (bal : ℚ) :
    blocks.foldl
      (fun balance block =>
        block.transactions.foldl
          (fun balance tx =>
            let b1 := if tx.sender = address then balance - tx.amount else balance
            if tx.recipient = address then b1 + tx.amount else b1)
          balance)
      bal
    = bal + ((blocks.map Block.transactions).flatten.map (txDelta address)).sum := by
  induction blocks generalizing bal with
  | nil => simp
  | cons b rest ih =>
    rw [List.foldl_cons, inner_fold_eq, ih]
    simp only [List.map_cons, List.flatten_cons, List.map_append, List.sum_append]
    ring

theorem balance_sum (bc : Blockchain) (address : Str) :
    Blockchain.get_balance bc address = ((allTxs bc).map (txDelta address)).sum := by
  unfold Blockchain.get_balance allTxs
  rw [outer_fold_eq]
  ring

theorem take_ne_strRepeat (h : Str) :
    ¬(h.take DIFFICULTY = strRepeat (['0', '0']) DIFFICULTY) := by
  intro he
  have hl := congrArg List.length he
  rw [List.length_take] at hl
  have hr : strRepeat (['0', '0']) DIFFICULTY = ['0', '0', '0', '0'] := rfl
  rw [hr] at hl
  simp [DIFFICULTY] at hl
  omega

theorem minedAccept_difficulty_false (h : Str) : minedAccept DIFFICULTY h = false := by
  simp [minedAccept, take_ne_strRepeat h]

theorem verify_signature_eq (tx : Transaction) :
    Transaction.verify_signature tx = !tx.signature.isEmpty := by
  unfold Transaction.verify_signature
  cases hb : tx.signature.isEmpty <;> simp

theorem add_transaction_eq (mp : Mempool) (tx : Transaction) :
    Mempool.add_transaction mp tx =
      if tx.signature = [] then (false, mp)
      else (true, { transactions := mp.transactions ++ [tx] }) := by
  unfold Mempool.add_transaction
  rw [verify_signature_eq, Bool.not_not]
  cases hs : tx.signature <;> simp [hs]

/-! ## C1 and C2: the mining loop exit condition is unsatisfiable -/

/-- C1: the claim says the nonce search of `Block::mine_block` always
eventually succeeds and is never reported as failed.  In the code the exit
test compares the first DIFFICULTY characters of the hash with the string
`"00".repeat(DIFFICULTY)`, which has 2 * DIFFICULTY characters; at the
repository difficulty 2 the two sides can never be equal, so no number of
loop iterations ever exits: the loop diverges and mining never succeeds. -/
theorem mine_block_never_succeeds (sha : Str → Str) (fuel : ℕ) (b : Block) :
    mineBlockFuel sha DIFFICULTY fuel b = none := by
  induction fuel generalizing b with
  | zero => rfl
  | succ n ih =>
    rw [mineBlockFuel, minedAccept_difficulty_false]
    simpa using ih _

/-- C2: the claim says every block on which mine_block has returned has its
first DIFFICULTY hash characters equal to the character 0 repeated
DIFFICULTY times.  Evidence of the underlying code bug: `specGoodHash` is a
64-character digest satisfying exactly that leading-zeros property, yet the
loop exit test of the code rejects it, so mine_block cannot return at all
and the stated invariant is never established by the code as written. -/
theorem mine_block_rejects_spec_valid_hash :
    specGoodHash.length = 64
    ∧ specGoodHash.take DIFFICULTY = List.replicate DIFFICULTY '0'
    ∧ minedAccept DIFFICULTY specGoodHash = false :=
  ⟨by decide, by decide, minedAccept_difficulty_false specGoodHash⟩

/-! ## C9: recomputing the hash of a mined block -/

/-- C9: whenever the mining loop exits (any difficulty, any number of
iterations), the stored hash of the resulting block equals the hash
recomputed from its stored fields, and the block hash function depends on
nothing but index, previous hash, timestamp, transaction content hashes and
nonce. -/
theorem mined_hash_recompute (sha : Str → Str) (d : ℕ) :
    ∀ (fuel : ℕ) (b b2 : Block), mineBlockFuel sha d fuel b = some b2 →
      Block.calculate_hash sha b2 = b2.hash
      ∧ ∀ c : Block, c.index = b2.index → c.previous_hash = b2.previous_hash →
          c.timestamp = b2.timestamp → c.nonce = b2.nonce →
          c.transactions.map (Transaction.calculate_hash sha)
            = b2.transactions.map (Transaction.calculate_hash sha) →
          Block.calculate_hash sha c = b2.hash := by
  intro fuel
  induction fuel with
  | zero => intro b b2 hs; simp [mineBlockFuel] at hs
  | succ n ih =>
    intro b b2 hs
    rw [mineBlockFuel] at hs
    by_cases hc : minedAccept d (Block.calculate_hash sha b) = true
    · rw [if_pos hc] at hs
      injection hs with hb2
      subst hb2
      refine ⟨rfl, ?_⟩
      intro c h1 h2 h3 h4 h5
      unfold Block.calculate_hash
      rw [h1, h2, h3, h5, h4]
    · rw [if_neg hc] at hs
      exact ih _ _ hs

/-- C9 witness: a concrete successful run at difficulty 0. -/
theorem mined_hash_recompute_witness :
    Block.calculate_hash sha0 blkM = blkM.hash :=
  (mined_hash_recompute sha0 0 1 blk0Ex blkM (by decide)).1

/-! ## C4, C5, C10: mine_pending_transactions -/

/-- C4: on a non-empty mempool, `mine_pending_transactions` returns true,
empties the mempool, and appends exactly one block whose transaction list
is the coinbase transaction (sender the sentinel string of the character 0,
recipient the miner address, amount the fixed reward) followed by the
drained pending transactions in order. -/
theorem mine_pending_success_shape (mineFn : Block → Block) (hm : MineSpec mineFn)
    (bc : Blockchain) (miner : Str) (now : ℕ)
    (h : bc.mempool.transactions ≠ []) :
    (Blockchain.mine_pending_transactions mineFn bc miner now).1 = true
    ∧ (Blockchain.mine_pending_transactions mineFn bc miner now).2.mempool.transactions
        = []
    ∧ ∃ blk, (Blockchain.mine_pending_transactions mineFn bc miner now).2.chain
        = bc.chain ++ [blk]
      ∧ blk.transactions
        = { sender := ['0'], recipient := miner, amount := REWARD_AMOUNT,
            timestamp := now, signature := [] } :: bc.mempool.transactions := by
  have hcond : ¬((Mempool.get_transactions bc.mempool).1.isEmpty = true) := by
    simpa [Mempool.get_transactions] using h
  unfold Blockchain.mine_pending_transactions
  rw [if_neg hcond]
  exact ⟨rfl, rfl, _, rfl, (hm _).2.2.2⟩

/-- C4 witness: a concrete chain with one pending transaction. -/
theorem mine_pending_success_shape_witness :
    (Blockchain.mine_pending_transactions mineFn0 bcC4 (['m']) 1).1 = true
    ∧ (Blockchain.mine_pending_transactions mineFn0 bcC4 (['m']) 1).2.mempool.transactions
        = [] :=
  ⟨(mine_pending_success_shape mineFn0 (fun _ => ⟨rfl, rfl, rfl, rfl⟩) bcC4 (['m']) 1
      (by decide)).1,
   (mine_pending_success_shape mineFn0 (fun _ => ⟨rfl, rfl, rfl, rfl⟩) bcC4 (['m']) 1
      (by decide)).2.1⟩

/-- C5: on an empty mempool, `mine_pending_transactions` returns false and
leaves the blockchain state (chain and mempool) completely unchanged. -/
theorem mine_pending_empty_noop (mineFn : Block → Block) (bc : Blockchain)
    (miner : Str) (now : ℕ) (h : bc.mempool.transactions = []) :
    Blockchain.mine_pending_transactions mineFn bc miner now = (false, bc) := by
  obtain ⟨chain, ⟨txs⟩⟩ := bc
  have h2 : txs = [] := h
  subst h2
  rfl

/-- C5 witness: the freshly constructed chain has an empty mempool. -/
theorem mine_pending_empty_noop_witness :
    Blockchain.mine_pending_transactions mineFn0 (Blockchain.new mineFn0 0) (['m']) 0
      = (false, Blockchain.new mineFn0 0) :=
  mine_pending_empty_noop mineFn0 (Blockchain.new mineFn0 0) (['m']) 0 rfl

/-- C6: mempool admission rejects exactly the transactions with an empty
signature and leaves the pool unchanged on rejection; it appends and
accepts every transaction with a non-empty signature; in particular every
transaction signed via `Transaction::sign` is accepted (the digest function
returns 64 characters, hence never an empty string). -/
theorem add_transaction_admission (mp : Mempool) (tx : Transaction) :
    (tx.signature = [] → Mempool.add_transaction mp tx = (false, mp))
    ∧ (tx.signature ≠ [] →
        Mempool.add_transaction mp tx
          = (true, { transactions := mp.transactions ++ [tx] }))
    ∧ ∀ (sha : Str → Str) (key : Str), (∀ s, sha s ≠ []) →
        Mempool.add_transaction mp (Transaction.sign sha tx key)
          = (true, { transactions := mp.transactions ++ [Transaction.sign sha tx key] }) := by
  refine ⟨?_, ?_, ?_⟩
  · intro he
    rw [add_transaction_eq, if_pos he]
  · intro hne
    rw [add_transaction_eq, if_neg hne]
  · intro sha key hsha
    rw [add_transaction_eq]
    simp only [Transaction.sign]
    rw [if_neg (hsha _)]

/-- C6 witness: a concrete unsigned transaction is rejected and the same
transaction once signed is accepted and appended. -/
theorem add_transaction_admission_witness :
    Mempool.add_transaction Mempool.new txEmptySig = (false, Mempool.new)
    ∧ Mempool.add_transaction Mempool.new (Transaction.sign sha0 txEmptySig (['k']))
        = (true, { transactions := [Transaction.sign sha0 txEmptySig (['k'])] }) :=
  ⟨(add_transaction_admission Mempool.new txEmptySig).1 rfl,
   (add_transaction_admission Mempool.new txEmptySig).2.2 sha0 (['k'])
     (fun s hs => by simp [sha0] at hs)⟩

/-- C10: the block appended by `mine_pending_transactions` starts with a
coinbase transaction whose signature is empty, whose signature check
returns false, and which every mempool would reject. -/
theorem coinbase_unsigned_in_block (mineFn : Block → Block) (hm : MineSpec mineFn)
    (bc : Blockchain) (miner : Str) (now : ℕ) (h : bc.mempool.transactions ≠ []) :
    ∃ blk, (Blockchain.mine_pending_transactions mineFn bc miner now).2.chain
        = bc.chain ++ [blk]
      ∧ ∃ cb, blk.transactions.head? = some cb
        ∧ cb.signature = []
        ∧ Transaction.verify_signature cb = false
        ∧ ∀ mp : Mempool, Mempool.add_transaction mp cb = (false, mp) := by
  have hcond : ¬((Mempool.get_transactions bc.mempool).1.isEmpty = true) := by
    simpa [Mempool.get_transactions] using h
  unfold Blockchain.mine_pending_transactions
  rw [if_neg hcond]
  refine ⟨_, rfl, ?_⟩
  rw [(hm _).2.2.2]
  refine ⟨_, rfl, rfl, rfl, ?_⟩
  intro mp
  rw [add_transaction_eq]
  simp [Transaction.new]

/-- C10 witness: concrete chain with one pending transaction. -/
theorem coinbase_unsigned_in_block_witness :
    ∃ blk, (Blockchain.mine_pending_transactions mineFn0 bcC4 (['m']) 1).2.chain
        = bcC4.chain ++ [blk]
      ∧ ∃ cb, blk.transactions.head? = some cb
        ∧ cb.signature = []
        ∧ Transaction.verify_signature cb = false
        ∧ ∀ mp : Mempool, Mempool.add_transaction mp cb = (false, mp) :=
  coinbase_unsigned_in_block mineFn0 (fun _ => ⟨rfl, rfl, rfl, rfl⟩) bcC4 (['m']) 1
    (by decide)

/-! ## C3: chain linkage and index invariants -/

/-- C3 counterexample: the claim asserts chain index correctness for every
state reachable by any sequence of the three operations including
`add_block`; but `add_block` keeps the index field supplied by the caller,
so the state reached by one `add_block` call with a block whose index field
is 5 is reachable and has chain position 1 holding index 5. -/
theorem chain_index_add_block_cex :
    Reachable sha0 mineFn0 bcC3
    ∧ 1 < bcC3.chain.length
    ∧ (bcC3.chain.getD 1 default).index ≠ 1 :=
  ⟨Reachable.add _ _ (Reachable.new 0), by decide, by decide⟩

/-- C3 amended: for every reachable state the hash linkage
`chain[i].previous_hash = chain[i-1].hash` holds and the genesis block
keeps index 0; the index correctness `chain[i].index = i % 2 ^ 32` (the u32
cast of the chain length) holds for every state reachable without
`add_block` calls. -/
theorem chain_linkage_index_amended (sha : Str → Str) (mineFn : Block → Block)
    (hm : MineSpec mineFn) (bc : Blockchain) :
    (Reachable sha mineFn bc →
      (∀ i, 0 < i → i < bc.chain.length →
        (bc.chain.getD i default).previous_hash = (bc.chain.getD (i - 1) default).hash)
      ∧ (bc.chain.getD 0 default).index = 0)
    ∧ (ReachableCore sha mineFn bc →
      ∀ i, i < bc.chain.length → (bc.chain.getD i default).index = i % 2 ^ 32) := by
  constructor
  · intro h
    obtain ⟨hne, hlink, hidx⟩ := reachable_chain_inv sha mineFn hm bc h
    exact ⟨linked_getD bc.chain hlink, hidx⟩
  · intro h i hi
    have hx := indexedFrom_getD bc.chain 0 (core_chain_indexed sha mineFn hm bc h).2 i hi
    rwa [Nat.zero_add] at hx

/-- C3 amended witness: a concrete two-block reachable state. -/
theorem chain_linkage_index_amended_witness :
    MineSpec mineFn0
    ∧ (bcC8.chain.getD 1 default).previous_hash = (bcC8.chain.getD 0 default).hash
    ∧ (bcC8.chain.getD 1 default).index = 1 % 2 ^ 32 := by
  have hm : MineSpec mineFn0 := fun _ => ⟨rfl, rfl, rfl, rfl⟩
  have hr : Reachable sha0 mineFn0 bcC8 :=
    Reachable.mine _ _ _ (Reachable.create _ _ _ _ _ _ (Reachable.new 0))
  have hc : ReachableCore sha0 mineFn0 bcC8 :=
    ReachableCore.mine _ _ _ (ReachableCore.create _ _ _ _ _ _ (ReachableCore.new 0))
  refine ⟨hm, ?_, ?_⟩
  · exact ((chain_linkage_index_amended sha0 mineFn0 hm bcC8).1 hr).1 1
      (by decide) (by decide)
  · exact (chain_linkage_index_amended sha0 mineFn0 hm bcC8).2 hc 1 (by decide)

/-! ## C7: balance replay -/

/-- C7: for every chain state and address, `get_balance` equals the sum
over every transaction of every block of plus the amount when the
transaction recipient is the address and minus the amount when its sender
is the address. -/
theorem get_balance_replay (bc : Blockchain) (address : Str) :
    Blockchain.get_balance bc address = ((allTxs bc).map (txDelta address)).sum :=
  balance_sum bc address

/-! ## C8: balance conservation -/

theorem mem_addrSetL : ∀ (l : List Transaction) (tx : Transaction), tx ∈ l →
    tx.sender ∈ addrSetL l ∧ tx.recipient ∈ addrSetL l := by
  intro l
  induction l with
  | nil => intro tx h; simp at h
  | cons x rest ih =>
    intro tx h
    rcases List.mem_cons.mp h with h1 | h2
    · subst h1
      exact ⟨Finset.mem_insert_self _ _,
        Finset.mem_insert_of_mem (Finset.mem_insert_self _ _)⟩
    · obtain ⟨hs, hr⟩ := ih tx h2
      exact ⟨Finset.mem_insert_of_mem (Finset.mem_insert_of_mem hs),
        Finset.mem_insert_of_mem (Finset.mem_insert_of_mem hr)⟩

theorem sum_txDelta (S : Finset Str) (tx : Transaction)
    (hs : tx.sender ∈ S) (hr : tx.recipient ∈ S) :
    S.sum (fun a => txDelta a tx) = 0 := by
  unfold txDelta
  rw [Finset.sum_sub_distrib, Finset.sum_ite_eq, Finset.sum_ite_eq,
    if_pos hr, if_pos hs]
  ring

theorem finset_sum_list_sum (S : Finset Str) :
    ∀ l : List Transaction,
      S.sum (fun a => (l.map (txDelta a)).sum)
        = (l.map (fun tx => S.sum (fun a => txDelta a tx))).sum := by
  intro l
  induction l with
  | nil => simp
  | cons x rest ih =>
    simp only [List.map_cons, List.sum_cons]
    rw [← ih, ← Finset.sum_add_distrib]

theorem sum_balance_zero (bc : Blockchain) :
    (addrSet bc).sum (Blockchain.get_balance bc) = 0 := by
  rw [Finset.sum_congr rfl (fun a _ => balance_sum bc a)]
  rw [finset_sum_list_sum]
  apply List.sum_eq_zero
  intro x hx
  simp only [List.mem_map] at hx
  obtain ⟨tx, htx, rfl⟩ := hx
  obtain ⟨hs, hr⟩ := mem_addrSetL (allTxs bc) tx htx
  exact sum_txDelta _ tx hs hr

theorem delta_sentinel_sum : ∀ (l : List Transaction),
    (∀ tx ∈ l, tx.recipient ≠ (['0'] : Str)) →
    (l.map (txDelta (['0']))).sum
      = -((l.map (fun tx => if tx.sender = ['0'] then tx.amount else 0)).sum) := by
  intro l
  induction l with
  | nil => intro _; simp
  | cons x rest ih =>
    intro h
    simp only [List.map_cons, List.sum_cons]
    rw [ih (fun tx ht => h tx (List.mem_cons_of_mem _ ht))]
    unfold txDelta
    rw [if_neg (h x (List.mem_cons_self _ _))]
    ring

theorem balance_sentinel (bc : Blockchain)
    (h0 : ∀ tx ∈ allTxs bc, tx.recipient ≠ (['0'] : Str)) :
    Blockchain.get_balance bc (['0']) = -coinbaseTotal bc := by
  rw [balance_sum]
  exact delta_sentinel_sum (allTxs bc) h0

theorem bcC8_eq_lit : bcC8 = bcLit := by decide

theorem addrSet_bcC8 :
    addrSet bcC8
      = insert (['0'] : Str) (insert (['m'] : Str) (insert (['a'] : Str)
          {(['b'] : Str)})) := by decide

theorem coinbaseTotal_bcC8 : coinbaseTotal bcC8 = REWARD_AMOUNT := by
  rw [bcC8_eq_lit]
  norm_num +decide [coinbaseTotal, allTxs, bcLit, REWARD_AMOUNT]

theorem balance_bcC8_sentinel : Blockchain.get_balance bcC8 (['0']) = -100 := by
  rw [bcC8_eq_lit]
  norm_num +decide [Blockchain.get_balance, bcLit, REWARD_AMOUNT]

theorem balance_bcC8_miner : Blockchain.get_balance bcC8 (['m']) = 100 := by
  rw [bcC8_eq_lit]
  norm_num +decide [Blockchain.get_balance, bcLit, REWARD_AMOUNT]

theorem balance_bcC8_a : Blockchain.get_balance bcC8 (['a']) = -50 := by
  rw [bcC8_eq_lit]
  norm_num +decide [Blockchain.get_balance, bcLit, REWARD_AMOUNT]

theorem balance_bcC8_b : Blockchain.get_balance bcC8 (['b']) = 50 := by
  rw [bcC8_eq_lit]
  norm_num +decide [Blockchain.get_balance, bcLit, REWARD_AMOUNT]

theorem sum_balance_bcC8 :
    (addrSet bcC8).sum (Blockchain.get_balance bcC8) = 0 := by
  rw [addrSet_bcC8, Finset.sum_insert (by decide), Finset.sum_insert (by decide),
    Finset.sum_insert (by decide), Finset.sum_singleton,
    balance_bcC8_sentinel, balance_bcC8_miner, balance_bcC8_a, balance_bcC8_b]
  norm_num

/-- C8 counterexample: the claim sums `get_balance` over ALL addresses that
ever appear as a sender or recipient.  The coinbase sentinel sender, the
one-character string 0, is such an address and its balance is minus the
total reward, so the claimed sum is 0, not the sum of the coinbase rewards.
Concretely: on the reachable two-block chain `bcC8` the coinbase reward
total is 100 while the sum of balances over its address set is 0. -/
theorem balance_conservation_cex :
    Reachable sha0 mineFn0 bcC8
    ∧ coinbaseTotal bcC8 = REWARD_AMOUNT
    ∧ (addrSet bcC8).sum (Blockchain.get_balance bcC8) = 0
    ∧ REWARD_AMOUNT ≠ (0 : ℚ) :=
  ⟨Reachable.mine _ _ _ (Reachable.create _ _ _ _ _ _ (Reachable.new 0)),
    coinbaseTotal_bcC8, sum_balance_bcC8, by decide⟩

/-- C8 amended: over every chain whose transactions never name the coinbase
sentinel as recipient, the sum of `get_balance` over all appearing
addresses is 0, and the sum over the appearing addresses EXCLUDING the
sentinel equals the total amount sent by the sentinel, i.e. the sum of all
coinbase reward amounts when the sentinel occurs only in coinbases. -/
theorem balance_conservation_amended (bc : Blockchain)
    (h0 : ∀ tx ∈ allTxs bc, tx.recipient ≠ (['0'] : Str)) :
    (addrSet bc).sum (Blockchain.get_balance bc) = 0
    ∧ ((addrSet bc).erase (['0'] : Str)).sum (Blockchain.get_balance bc)
        = coinbaseTotal bc := by
  refine ⟨sum_balance_zero bc, ?_⟩
  by_cases hmem : (['0'] : Str) ∈ addrSet bc
  · have h1 := Finset.sum_erase_add (addrSet bc) (Blockchain.get_balance bc) hmem
    rw [sum_balance_zero bc, balance_sentinel bc h0] at h1
    linarith
  · rw [Finset.erase_eq_of_not_mem hmem, sum_balance_zero bc]
    symm
    apply List.sum_eq_zero
    intro x hx
    simp only [List.mem_map] at hx
    obtain ⟨tx, htx, rfl⟩ := hx
    rw [if_neg]
    intro hcontra
    exact hmem (hcontra ▸ (mem_addrSetL (allTxs bc) tx htx).1)

/-- C8 amended witness: the concrete chain `bcC8` satisfies the no-sentinel-
recipient hypothesis, and excluding the sentinel the balances sum to its
coinbase total. -/
theorem balance_conservation_amended_witness :
    (∀ tx ∈ allTxs bcC8, tx.recipient ≠ (['0'] : Str))
    ∧ ((addrSet bcC8).erase (['0'] : Str)).sum (Blockchain.get_balance bcC8)
        = coinbaseTotal bcC8 := by
  have h0 : ∀ tx ∈ allTxs bcC8, tx.recipient ≠ (['0'] : Str) := by decide
  exact ⟨h0, (balance_conservation_amended bcC8 h0).2⟩

end BlockchainSim
